import Mathlib

/-!
# Verification of `frequency` (parallel letter frequency)

Shallow embedding of `src/solutions/rust/parallel-letter-frequency/7/src/lib.rs`.

The source function is

```rust
pub fn frequency<'a>(input: &[&str], worker_count: usize) -> HashMap<char, usize>
```

It partitions the input lines into `worker_count` contiguous chunks with
boundaries `(chunk_size * i).round() as usize` where
`chunk_size = input.len() as f32 / worker_count as f32`; each worker scans its
chunk (`skip(chunk_start).take(chunk_end - chunk_start)`), filters alphabetic
characters, maps each to the first code point of its lowercase folding
(`c.to_lowercase().next().unwrap()`), and folds them into a local
`HashMap<char, usize>` via `*counts.entry(c).or_insert(0) += 1`; the main
thread receives the `worker_count` partial tables and folds them into one
table via `*totals.entry(k).or_insert(0) += v`.

Modelling decisions:

* A `HashMap<char, usize>` is modelled as an association list `Table` with no
  duplicate keys; `bump` embeds `*m.entry(k).or_insert(0) += v`.  Rust
  `HashMap` equality and iteration are key-set/value based, so "same mapping"
  is stated through `lookupT` (and order independence of the aggregation fold
  is proved explicitly, quantifying over permutations of the partial tables).
* The `f32` boundary arithmetic is modelled bit-faithfully: the two
  `usize as f32` casts, the division and the multiplication each round to
  nearest, ties to even (IEEE-754 binary32: 24-bit significand, with the
  exact values carried as significand–exponent pairs of integers), and
  `f32::round` is round half away from zero, `⌊x + 1/2⌋` on these
  nonnegative values.  The model keeps the exponent unbounded: from `usize`
  inputs with `i ≤ worker_count` no subnormal and no overflow is reachable,
  so it agrees with binary32 on everything the source computes.  The
  rounding is observable: at 10404221 lines and 9 workers the last boundary
  is 10404220, not 10404221, and the last line is never scanned.
* `char::is_alphabetic` and `char::to_lowercase` consult Unicode tables that
  live outside this repository; the development is parameterized over an
  arbitrary `isAlpha : Char → Bool` and `toLower : Char → List Char`
  (`to_lowercase` yields one or more code points; the source keeps only the
  first, embedded by `lowerFirst`).  Concrete instantiations used in the
  concrete scenarios are given below and documented where they are modelled
  from the spec rather than from code in `src/`.
* The `println!` diagnostics are pure observability and have no effect on the
  returned value; they are not modelled (the spec calls them an optional
  observability concern external to correctness).
-/

/-- A `HashMap<char, usize>` value, observed as an association list of
(key, count) entries with pairwise distinct keys. -/
abbrev Table := List (Char × Nat)

/-- Lookup of a key, `m.get(&k)`: the value of the first (and, for the tables
built here, only) entry with key `k`. -/
def lookupT : Table → Char → Option Nat
  | [], _ => none
  | p :: t, k => if p.1 = k then some p.2 else lookupT t k

/-- The count stored for `k`, with absence read as 0. -/
def countT (t : Table) (k : Char) : Nat := (lookupT t k).getD 0

/-- `*m.entry(k).or_insert(0) += v`: add `v` to the entry of `k`, creating it
(with initial value `0`, then incremented) when absent. -/
def bump : Table → Char → Nat → Table
  | [], k, v => [(k, v)]
  | p :: t, k, v => if p.1 = k then (p.1, p.2 + v) :: t else p :: bump t k v

/-- Binary logarithm with structural fuel (one unit per halving, so
`fuel = n` always suffices); written without well-founded recursion so that
boundary values evaluate inside the kernel. -/
def log2fuel : ℕ → ℕ → ℕ
  | 0, _ => 0
  | fuel + 1, n => if n ≤ 1 then 0 else log2fuel fuel (n / 2) + 1

/-- `⌊log₂ n⌋` for `n ≥ 1` (and 0 at 0). -/
def log2n (n : ℕ) : ℕ := log2fuel n n

/-- Round the fraction `a / b` (for `b > 0`) to the nearest integer, ties to
even — the significand rounding of IEEE-754 round-to-nearest-even, written
on quotient and remainder. -/
def rneInt (a b : ℕ) : ℕ :=
  if 2 * (a % b) < b then a / b
  else if b < 2 * (a % b) then a / b + 1
  else if (a / b) % 2 = 0 then a / b else a / b + 1

/-- `⌊log₂ (p / q)⌋` for `p, q ≥ 1`. -/
def ilog2F (p q : ℕ) : ℤ :=
  let e : ℤ := (log2n p : ℤ) - (log2n q : ℤ)
  if p * 2 ^ (-e).toNat < q * 2 ^ e.toNat then e - 1 else e

/-- The scaled value `P * 2 ^ T` written as a fraction of naturals. -/
def fracOfScaled (P : ℕ) (T : ℤ) : ℕ × ℕ := (P * 2 ^ T.toNat, 2 ^ (-T).toNat)

/-- IEEE-754 binary32 rounding (to nearest, ties to even) of the fraction
`p / q`, as a significand–exponent pair `(m, t)` of value `m * 2 ^ t`.  The
exponent is unclamped: the model agrees with binary32 wherever the result is
zero or in the normal range, which covers every value the source reaches
from `usize` inputs (no subnormal, no overflow). -/
def roundF32Frac (p q : ℕ) : ℕ × ℤ :=
  if p = 0 then (0, 0)
  else (rneInt (p * 2 ^ (-(ilog2F p q - 23)).toNat) (q * 2 ^ (ilog2F p q - 23).toNat),
    ilog2F p q - 23)

/-- `n as f32`: the `usize`-to-`f32` conversion rounds to nearest, ties to
even. -/
def ofNatF32 (n : ℕ) : ℕ × ℤ := roundF32Frac n 1

/-- `f32` multiplication: round the exact product. -/
def mulF32 (a b : ℕ × ℤ) : ℕ × ℤ :=
  roundF32Frac (fracOfScaled (a.1 * b.1) (a.2 + b.2)).1
    (fracOfScaled (a.1 * b.1) (a.2 + b.2)).2

/-- `f32` division: round the exact quotient.  (With `worker_count = 0` the
source divides by zero and gets an infinity that no worker ever reads; here
the same dead branch yields an unused junk value.) -/
def divF32 (a b : ℕ × ℤ) : ℕ × ℤ :=
  roundF32Frac (a.1 * 2 ^ (a.2 - b.2).toNat) (b.1 * 2 ^ (b.2 - a.2).toNat)

/-- `.round() as usize` on the nonnegative value `p / q`: `f32::round` is
round half away from zero, `⌊p/q + 1/2⌋`, i.e. the natural-number division
`(2p + q) / (2q)`. -/
def rustRoundFrac (p q : ℕ) : ℕ := (2 * p + q) / (2 * q)

/-- The chunk boundary `(chunk_size * i as f32).round() as usize` with
`chunk_size = input.len() as f32 / worker_count as f32`: both casts, the
division and the product are binary32 operations. -/
def chunkBoundary (total wc i : Nat) : Nat :=
  let x := mulF32 (divF32 (ofNatF32 total) (ofNatF32 wc)) (ofNatF32 i)
  rustRoundFrac (fracOfScaled x.1 x.2).1 (fracOfScaled x.1 x.2).2

/-- The exact rational value of a significand–exponent pair (proof side
only). -/
def valF32 (v : ℕ × ℤ) : ℚ := (v.1 : ℚ) * 2 ^ v.2

/-- Round to nearest integer, ties to even, over `ℚ`: the proof-side mirror
of `rneInt`. -/
def rneQ (x : ℚ) : ℤ :=
  if Int.fract x < 1 / 2 then ⌊x⌋
  else if 1 / 2 < Int.fract x then ⌊x⌋ + 1
  else if ⌊x⌋ % 2 = 0 then ⌊x⌋ else ⌊x⌋ + 1

/-- `c.to_lowercase().next().unwrap()`: the first code point of the lowercase
folding of `c` (Rust's `to_lowercase` always yields at least one code point,
so `next()` never sees `None`; the default is never consulted for such a
`toLower`). -/
def lowerFirst (toLower : Char → List Char) (c : Char) : Char := (toLower c).headD c

/-- The letter stream of a block of lines:
`.map(|sentence| sentence.chars().filter(|c| c.is_alphabetic())).flatten()
 .map(|c| c.to_lowercase().next().unwrap())`. -/
def lineLetters (isAlpha : Char → Bool) (toLower : Char → List Char) (lines : List (List Char)) : List Char :=
  ((lines.map (fun s => s.filter isAlpha)).flatten).map (lowerFirst toLower)

/-- `.skip(s).take(e - s)` on the line list: the half-open index range `[s, e)`. -/
def chunkLines (l : List (List Char)) (s e : Nat) : List (List Char) := (l.drop s).take (e - s)

/-- `.fold(HashMap::new(), |mut counts, current| { *counts.entry(current).or_insert(0) += 1; counts })`. -/
def countFold (cs : List Char) : Table := cs.foldl (fun counts current => bump counts current 1) []

/-- The partial frequency table produced (and sent) by worker `i`:
its chunk is `[chunk_start, chunk_end)` with both ends computed by the
rounded-ratio formula. -/
def workerTable (isAlpha : Char → Bool) (toLower : Char → List Char)
    (lines : List (List Char)) (wc i : Nat) : Table :=
  countFold (lineLetters isAlpha toLower
    (chunkLines lines (chunkBoundary lines.length wc i) (chunkBoundary lines.length wc (i + 1))))

/-- The list of the `worker_count` partial tables, indexed by worker number.
The receive order at the channel is unspecified; order independence of the
aggregation is proved over all permutations of this list. -/
def partialTables (isAlpha : Char → Bool) (toLower : Char → List Char)
    (lines : List (List Char)) (wc : Nat) : List Table :=
  (List.range wc).map (workerTable isAlpha toLower lines wc)

/-- One aggregation step, `next.into_iter().for_each(|pair| { *totals.entry(pair.0 as char).or_insert(0) += pair.1; })`. -/
def mergeInto (totals next : Table) : Table :=
  next.foldl (fun totals pair => bump totals pair.1 pair.2) totals

/-- `(0..worker_count).map(|_| rx.recv().unwrap()).fold(HashMap::new(), ...)`. -/
def aggregate (ts : List Table) : Table := ts.foldl mergeInto []

/-- The whole of `frequency`: partition, per-chunk counting, aggregation. -/
def frequency (isAlpha : Char → Bool) (toLower : Char → List Char)
    (lines : List (List Char)) (wc : Nat) : Table :=
  aggregate (partialTables isAlpha toLower lines wc)

/-- The sum of all counts in a table. -/
def tableTotal (t : Table) : Nat := (t.map Prod.snd).sum

/-- The total number of alphabetic characters occurring across all input
lines (the alphabetic property is case-independent, so this is the
case-insensitive alphabetic character count of the spec). -/
def alphaCount (isAlpha : Char → Bool) (lines : List (List Char)) : Nat :=
  ((lines.flatten).filter isAlpha).length

/-- Every entry of a table has a positive count. -/
def AllPos (t : Table) : Prop := ∀ p ∈ t, 1 ≤ p.2

/-- The total contribution of a key across all entries of a (possibly
duplicate-keyed) pair list. -/
def keySum (t : Table) (k : Char) : Nat :=
  (t.map fun p => if p.1 = k then p.2 else 0).sum

/-- Modelled from the spec: the Unicode tables behind `char::is_alphabetic`
are not part of this repository; on the ASCII inputs of the concrete
scenarios, a character is alphabetic exactly when it is a basic Latin
letter. -/
def asciiAlpha (c : Char) : Bool := ('a' ≤ c && c ≤ 'z') || ('A' ≤ c && c ≤ 'Z')

/-- Modelled from the spec: the Unicode tables behind `char::to_lowercase`
are not part of this repository; on the ASCII inputs of the concrete
scenarios the folding maps `A`–`Z` to the single code point 32 places up and
leaves everything else unchanged. -/
def asciiToLower (c : Char) : List Char :=
  if 'A' ≤ c && c ≤ 'Z' then [Char.ofNat (c.toNat + 32)] else [c]

/-- Modelled from the spec: `U+0130` (Latin capital letter I with dot above)
is alphabetic; otherwise as `asciiAlpha`.  Used to exercise the
multi-code-point folding path. -/
def latinAlpha (c : Char) : Bool := asciiAlpha c || c = Char.ofNat 0x130

/-- Modelled from the spec: a character may case-fold to multiple code
points; `U+0130` lowercases to the two code points `U+0069 U+0307`
(`i` followed by combining dot above); otherwise as `asciiToLower`. -/
def dottedToLower (c : Char) : List Char :=
  if c = Char.ofNat 0x130 then [Char.ofNat 0x69, Char.ofNat 0x307] else asciiToLower c

/-- 10404220 empty lines followed by the single line `"a"`.  At this length
the binary32 partition with 9 workers loses the last line:
`f32(10404221 / 9) = 1156024.5`, and `1156024.5 * 9` rounds (ties to even)
to `10404220`, so the nine chunks tile only `[0, 10404220)`. -/
def gapLines : List (List Char) := List.replicate 10404220 [] ++ [['a']]

/-! ## Association-table lemmas -/

/-- Effect of `bump` on lookups: the bumped key reads back as its old count
plus the increment, every other key is untouched. -/
theorem lookupT_bump (t : Table) (k : Char) (v : Nat) (a : Char) :
    lookupT (bump t k v) a = if a = k then some (countT t k + v) else lookupT t a := by
  induction t with
  | nil =>
    by_cases h : a = k
    · subst h; simp [bump, lookupT, countT]
    · simp [bump, lookupT, countT, h, Ne.symm h]
  | cons p t ih =>
    by_cases hpk : p.1 = k
    · subst hpk
      by_cases hpa : p.1 = a
      · subst hpa; simp [bump, lookupT, countT]
      · have hap : ¬a = p.1 := fun h => hpa h.symm
        simp [bump, lookupT, countT, hpa, hap]
    · have hck : countT (p :: t) k = countT t k := by
        simp [countT, lookupT, hpk]
      by_cases hpa : p.1 = a
      · have hak : ¬a = k := fun h => hpk (hpa.trans h)
        simp [bump, lookupT, hpk, hpa, hak]
      · simp [bump, lookupT, hpk, hpa, ih, hck]

/-- `bump` adds `v` to the count of `k` and leaves every other count alone. -/
theorem countT_bump (t : Table) (k : Char) (v : Nat) (a : Char) :
    countT (bump t k v) a = countT t a + if a = k then v else 0 := by
  by_cases h : a = k <;> simp [countT, lookupT_bump, h]

/-- Keys after a `bump`: the bumped key together with the old keys. -/
theorem mem_keys_bump (t : Table) (k : Char) (v : Nat) (a : Char) :
    a ∈ (bump t k v).map Prod.fst ↔ a = k ∨ a ∈ t.map Prod.fst := by
  induction t with
  | nil => simp [bump]
  | cons p t ih =>
    by_cases hpk : p.1 = k
    · subst hpk; simp [bump]
    · simp [bump, hpk, ih]; tauto

/-- `bump` preserves distinctness of keys. -/
theorem keys_nodup_bump (t : Table) (k : Char) (v : Nat)
    (h : (t.map Prod.fst).Nodup) : ((bump t k v).map Prod.fst).Nodup := by
  induction t with
  | nil => simp [bump]
  | cons p t ih =>
    have h' : p.1 ∉ t.map Prod.fst ∧ (t.map Prod.fst).Nodup :=
      List.nodup_cons.mp (by simpa using h)
    by_cases hpk : p.1 = k
    · subst hpk; simpa [bump] using h
    · have htail := ih h'.2
      have hhead : p.1 ∉ (bump t k v).map Prod.fst := by
        intro hmem
        rcases (mem_keys_bump t k v p.1).mp hmem with h1 | h2
        · exact hpk h1
        · exact h'.1 h2
      simpa [bump, hpk] using List.nodup_cons.mpr ⟨hhead, htail⟩

/-- `bump` by a positive increment keeps all counts positive. -/
theorem allPos_bump : ∀ (t : Table) (k : Char) (v : Nat),
    AllPos t → 1 ≤ v → AllPos (bump t k v)
  | [], _, _, _, hv => by
    intro p hp
    simp [bump] at hp
    subst hp; exact hv
  | q :: t, k, v, ht, hv => by
    intro p hp
    by_cases hqk : q.1 = k
    · simp [bump, hqk] at hp
      rcases hp with h1 | h2
      · have := ht q (by simp)
        subst h1; simp; omega
      · exact ht p (by simp [h2])
    · simp [bump, hqk] at hp
      rcases hp with h1 | h2
      · exact h1 ▸ ht q (by simp)
      · exact allPos_bump t k v (fun r hr => ht r (by simp [hr])) hv p h2

/-- Folding `bump` over a pair list (the aggregation loop body) adds each
pair's contribution to the running table. -/
theorem countT_foldl_bump (k : Char) :
    ∀ (u : List (Char × Nat)) (t : Table),
      countT (u.foldl (fun m p => bump m p.1 p.2) t) k = countT t k + keySum u k
  | [], t => by simp [keySum]
  | p :: u, t => by
    rw [List.foldl_cons, countT_foldl_bump k u (bump t p.1 p.2), countT_bump]
    by_cases h : p.1 = k
    · simp [keySum, h]; omega
    · simp [keySum, h, Ne.symm h]

/-- `mergeInto` adds the incoming table's contributions to the totals. -/
theorem countT_mergeInto (t u : Table) (k : Char) :
    countT (mergeInto t u) k = countT t k + keySum u k :=
  countT_foldl_bump k u t

/-- The aggregation fold sums the contributions of all received tables. -/
theorem countT_foldl_mergeInto (k : Char) :
    ∀ (ts : List Table) (t : Table),
      countT (ts.foldl mergeInto t) k = countT t k + (ts.map fun u => keySum u k).sum
  | [], t => by simp
  | u :: ts, t => by
    rw [List.foldl_cons, countT_foldl_mergeInto k ts (mergeInto t u), countT_mergeInto]
    simp; omega

/-- A key that appears in no entry looks up to `none`. -/
theorem lookupT_eq_none (t : Table) (a : Char) (h : a ∉ t.map Prod.fst) :
    lookupT t a = none := by
  induction t with
  | nil => simp [lookupT]
  | cons p t ih =>
    rw [List.map_cons] at h
    have h1 : ¬p.1 = a := fun hh => h (by simp [hh])
    have h2 : a ∉ t.map Prod.fst := fun hh => h (by simp [hh])
    simp [lookupT, h1, ih h2]

/-- A key that appears in no entry contributes nothing. -/
theorem keySum_of_not_mem (t : Table) (k : Char) (h : k ∉ t.map Prod.fst) :
    keySum t k = 0 := by
  induction t with
  | nil => simp [keySum]
  | cons p t ih =>
    rw [List.map_cons] at h
    have h1 : ¬p.1 = k := fun hh => h (by simp [hh])
    have h2 : k ∉ t.map Prod.fst := fun hh => h (by simp [hh])
    have h0 := ih h2
    simp [keySum] at h0
    simp [keySum, h1, h0]

/-- On a table with distinct keys, the contribution of a key is exactly its
stored count. -/
theorem keySum_eq_countT : ∀ (t : Table),
    (t.map Prod.fst).Nodup → ∀ k, keySum t k = countT t k
  | [], _, k => by simp [keySum, countT, lookupT]
  | p :: t, h, k => by
    have h' : p.1 ∉ t.map Prod.fst ∧ (t.map Prod.fst).Nodup :=
      List.nodup_cons.mp (by simpa using h)
    by_cases hpk : p.1 = k
    · subst hpk
      have h0 : keySum t p.1 = 0 := keySum_of_not_mem t p.1 h'.1
      simp [keySum] at h0
      simp [keySum, countT, lookupT, h0]
    · have ht := keySum_eq_countT t h'.2 k
      simp [keySum, countT] at ht
      simp [keySum, countT, lookupT, hpk, ht]

/-- Folding the per-character counting step starting from any table adds the
occurrence count of each character. -/
theorem countT_foldl_count (k : Char) :
    ∀ (cs : List Char) (t : Table),
      countT (cs.foldl (fun m c => bump m c 1) t) k = countT t k + cs.count k
  | [], t => by simp
  | c :: cs, t => by
    rw [List.foldl_cons, countT_foldl_count k cs (bump t c 1), countT_bump]
    by_cases h : k = c
    · simp [List.count_cons, h]; omega
    · simp [List.count_cons, h, Ne.symm h]

/-- The worker fold produces exactly the occurrence counts of its letter
stream. -/
theorem countT_countFold (cs : List Char) (k : Char) :
    countT (countFold cs) k = cs.count k := by
  simpa [countFold, countT, lookupT] using countT_foldl_count k cs []

/-- The counting fold keeps keys distinct. -/
theorem keys_nodup_foldl_count :
    ∀ (cs : List Char) (t : Table), (t.map Prod.fst).Nodup →
      ((cs.foldl (fun m c => bump m c 1) t).map Prod.fst).Nodup
  | [], _, h => h
  | c :: cs, t, h =>
    keys_nodup_foldl_count cs (bump t c 1) (keys_nodup_bump t c 1 h)

/-- Worker tables have distinct keys. -/
theorem keys_nodup_countFold (cs : List Char) :
    ((countFold cs).map Prod.fst).Nodup :=
  keys_nodup_foldl_count cs [] (by simp)

/-- The counting fold keeps all counts positive. -/
theorem allPos_foldl_count :
    ∀ (cs : List Char) (t : Table), AllPos t →
      AllPos (cs.foldl (fun m c => bump m c 1) t)
  | [], _, h => h
  | c :: cs, t, h =>
    allPos_foldl_count cs (bump t c 1) (allPos_bump t c 1 h (le_refl 1))

/-- Worker tables carry only positive counts. -/
theorem allPos_countFold (cs : List Char) : AllPos (countFold cs) :=
  allPos_foldl_count cs [] (by intro p hp; simp at hp)

/-- Merging a positive table into a positive table stays positive. -/
theorem allPos_mergeInto : ∀ (u : List (Char × Nat)) (t : Table),
    AllPos t → AllPos u → AllPos (mergeInto t u)
  | [], t, ht, _ => ht
  | p :: u, t, ht, hu =>
    allPos_mergeInto u (bump t p.1 p.2)
      (allPos_bump t p.1 p.2 ht (hu p (by simp)))
      (fun r hr => hu r (by simp [hr]))

/-- The aggregation fold over positive tables stays positive. -/
theorem allPos_foldl_mergeInto : ∀ (ts : List Table) (t : Table),
    AllPos t → (∀ u ∈ ts, AllPos u) → AllPos (ts.foldl mergeInto t)
  | [], t, ht, _ => ht
  | u :: ts, t, ht, hts =>
    allPos_foldl_mergeInto ts (mergeInto t u)
      (allPos_mergeInto u t ht (hts u (by simp)))
      (fun r hr => hts r (by simp [hr]))

/-- A successful lookup comes from an entry of the table. -/
theorem lookupT_mem : ∀ (t : Table) (k : Char) (v : Nat),
    lookupT t k = some v → (k, v) ∈ t
  | [], k, v, h => by simp [lookupT] at h
  | p :: t, k, v, h => by
    by_cases hpk : p.1 = k
    · subst hpk
      simp [lookupT] at h
      subst h; simp
    · simp [lookupT, hpk] at h
      exact List.mem_cons_of_mem _ (lookupT_mem t k v h)

/-- In a positive table, every successful lookup is at least 1. -/
theorem lookupT_pos {t : Table} (ht : AllPos t) {k : Char} {v : Nat}
    (h : lookupT t k = some v) : 1 ≤ v :=
  ht (k, v) (lookupT_mem t k v h)

/-- Two positive tables that agree on all counts agree on all lookups:
absence cannot masquerade as a stored zero. -/
theorem lookupT_eq_of_countT {t u : Table} (ht : AllPos t) (hu : AllPos u)
    (h : ∀ k, countT t k = countT u k) (k : Char) : lookupT t k = lookupT u k := by
  cases h1 : lookupT t k with
  | none =>
    cases h2 : lookupT u k with
    | none => rfl
    | some w =>
      have hw := lookupT_pos hu h2
      have hc := h k
      simp [countT, h1, h2] at hc
      omega
  | some v =>
    cases h2 : lookupT u k with
    | none =>
      have hv := lookupT_pos ht h1
      have hc := h k
      simp [countT, h1, h2] at hc
      omega
    | some w =>
      have hc := h k
      simp [countT, h1, h2] at hc
      simp [hc]

/-! ## Partition lemmas -/

/-- `log2fuel` meets the binary-logarithm specification whenever the fuel
covers the argument. -/
theorem log2fuel_spec : ∀ (fuel n : ℕ), 1 ≤ n → n ≤ fuel →
    2 ^ log2fuel fuel n ≤ n ∧ n < 2 ^ (log2fuel fuel n + 1)
  | 0, n, h1, h2 => absurd (le_trans h1 h2) (by omega)
  | fuel + 1, n, h1, h2 => by
    by_cases hn : n ≤ 1
    · have : n = 1 := by omega
      simp [log2fuel, hn, this]
    · have hrec := log2fuel_spec fuel (n / 2) (by omega) (by omega)
      simp only [log2fuel, hn, if_false]
      obtain ⟨hl, hr⟩ := hrec
      constructor
      · calc 2 ^ (log2fuel fuel (n / 2) + 1) = 2 * 2 ^ log2fuel fuel (n / 2) := by ring
        _ ≤ 2 * (n / 2) := by omega
        _ ≤ n := by omega
      · calc n < 2 * (n / 2) + 2 := by omega
        _ ≤ 2 * 2 ^ (log2fuel fuel (n / 2) + 1) := by omega
        _ = 2 ^ (log2fuel fuel (n / 2) + 1 + 1) := by ring

/-- `log2n` is the binary logarithm. -/
theorem log2n_spec (n : ℕ) (h : 1 ≤ n) :
    2 ^ log2n n ≤ n ∧ n < 2 ^ (log2n n + 1) :=
  log2fuel_spec n n h (le_refl n)

/-- A natural-number division, cast to `ℤ`, is the floor of the rational
quotient. -/
theorem natDiv_cast_floor (a b : ℕ) : ((a / b : ℕ) : ℤ) = ⌊(a : ℚ) / b⌋ := by
  have hfloor := Rat.floor_intCast_div_natCast (a : ℤ) b
  have hcast : (((a : ℕ) : ℤ) : ℚ) = ((a : ℕ) : ℚ) := by push_cast; ring
  rw [hcast] at hfloor
  rw [hfloor]
  exact Int.natCast_div a b

/-- The fractional part of a natural-number quotient is the remainder over
the divisor. -/
theorem natMod_fract (a b : ℕ) (hb : 0 < b) :
    Int.fract ((a : ℚ) / b) = ((a % b : ℕ) : ℚ) / b := by
  have hb' : (0 : ℚ) < b := by positivity
  have hmod' : (a : ℚ) = (b : ℚ) * ((a / b : ℕ) : ℚ) + ((a % b : ℕ) : ℚ) := by
    exact_mod_cast (Nat.div_add_mod a b).symm
  have hfl : (⌊(a : ℚ) / b⌋ : ℚ) = ((a / b : ℕ) : ℚ) := by
    rw [← natDiv_cast_floor]
    exact Int.cast_natCast _
  rw [Int.fract, hfl, hmod']
  field_simp

/-- `rneQ` is at least the floor. -/
theorem rneQ_floor_le (x : ℚ) : ⌊x⌋ ≤ rneQ x := by
  unfold rneQ
  split_ifs <;> omega

/-- `rneQ` is at most the floor plus one. -/
theorem rneQ_le (x : ℚ) : rneQ x ≤ ⌊x⌋ + 1 := by
  unfold rneQ
  split_ifs <;> omega

/-- Round-to-nearest-ties-to-even is monotone. -/
theorem rneQ_mono {x y : ℚ} (h : x ≤ y) : rneQ x ≤ rneQ y := by
  have hf : ⌊x⌋ ≤ ⌊y⌋ := Int.floor_le_floor h
  rcases eq_or_lt_of_le hf with heq | hlt
  · have hfr : Int.fract x ≤ Int.fract y := by
      unfold Int.fract
      rw [← heq]
      linarith
    unfold rneQ
    rw [← heq]
    split_ifs <;> first | omega | linarith
  · have h1 := rneQ_le x
    have h2 := rneQ_floor_le y
    omega

/-- `rneQ` of a nonnegative value is nonnegative. -/
theorem rneQ_nonneg {x : ℚ} (hx : 0 ≤ x) : 0 ≤ rneQ x :=
  le_trans (Int.floor_nonneg.mpr hx) (rneQ_floor_le x)

/-- The integer tie-to-even rounding computes `rneQ` of the fraction. -/
theorem rneInt_eq (a b : ℕ) (hb : 0 < b) :
    (rneInt a b : ℤ) = rneQ ((a : ℚ) / b) := by
  have hb' : (0 : ℚ) < b := by positivity
  have hfr := natMod_fract a b hb
  have h2 : (Int.fract ((a : ℚ) / b) < 1 / 2) = (2 * (a % b) < b) := by
    rw [hfr]
    apply propext
    rw [div_lt_div_iff hb' (by norm_num : (0:ℚ) < 2)]
    constructor
    · intro hlt
      have h'' : ((2 * (a % b) : ℕ) : ℚ) < ((b : ℕ) : ℚ) := by push_cast; linarith
      exact_mod_cast h''
    · intro hlt
      have h'' : ((2 * (a % b) : ℕ) : ℚ) < ((b : ℕ) : ℚ) := by exact_mod_cast hlt
      push_cast at h''
      linarith
  have h3 : (1 / 2 < Int.fract ((a : ℚ) / b)) = (b < 2 * (a % b)) := by
    rw [hfr]
    apply propext
    rw [div_lt_div_iff (by norm_num : (0:ℚ) < 2) hb']
    constructor
    · intro hlt
      have h'' : ((b : ℕ) : ℚ) < ((2 * (a % b) : ℕ) : ℚ) := by push_cast; linarith
      exact_mod_cast h''
    · intro hlt
      have h'' : ((b : ℕ) : ℚ) < ((2 * (a % b) : ℕ) : ℚ) := by exact_mod_cast hlt
      push_cast at h''
      linarith
  have h4 : ((((a / b : ℕ) : ℤ)) % 2 = 0) = ((a / b) % 2 = 0) := by
    apply propext
    omega
  unfold rneInt rneQ
  simp only [h2, h3, ← natDiv_cast_floor, h4]
  split_ifs <;> push_cast <;> ring

/-- `2 ^ e` over `ℚ` as a quotient of natural powers (one side is `2^0`). -/
theorem zpow_toNat_div (e : ℤ) :
    (2 : ℚ) ^ e = ((2 ^ e.toNat : ℕ) : ℚ) / ((2 ^ (-e).toNat : ℕ) : ℚ) := by
  rcases le_or_lt 0 e with he | he
  · have h1 : (-e).toNat = 0 := by omega
    have h2 : (e.toNat : ℤ) = e := Int.toNat_of_nonneg he
    have h3 : (2 : ℚ) ^ (e.toNat : ℕ) = (2 : ℚ) ^ e := by
      rw [← zpow_natCast (2 : ℚ) e.toNat, h2]
    rw [← h3, h1]
    push_cast
    ring
  · have h1 : e.toNat = 0 := by omega
    have h2 : ((-e).toNat : ℤ) = -e := Int.toNat_of_nonneg (by omega)
    have h3 : (2 : ℚ) ^ e = ((2 : ℚ) ^ (((-e).toNat : ℕ) : ℤ))⁻¹ := by
      rw [h2, ← zpow_neg, neg_neg]
    rw [h1, h3, zpow_natCast]
    push_cast
    ring

/-- The specification of `ilog2F`: it brackets the quotient between two
consecutive powers of two. -/
theorem ilog2F_spec (p q : ℕ) (hp : 1 ≤ p) (hq : 1 ≤ q) :
    (2 : ℚ) ^ ilog2F p q ≤ (p : ℚ) / q ∧ (p : ℚ) / q < 2 ^ (ilog2F p q + 1) := by
  obtain ⟨ha1, ha2⟩ := log2n_spec p hp
  obtain ⟨hb1, hb2⟩ := log2n_spec q hq
  have hq' : (0 : ℚ) < q := by positivity
  set a := log2n p with hadef
  set b := log2n q with hbdef
  set e : ℤ := (a : ℤ) - (b : ℤ) with hedef
  have hlow : (2 : ℚ) ^ (e - 1) < (p : ℚ) / q := by
    have hnat : 2 ^ a * q < p * 2 ^ (b + 1) := by
      calc 2 ^ a * q < 2 ^ a * 2 ^ (b + 1) :=
        mul_lt_mul_of_pos_left hb2 (pow_pos (by norm_num) a)
      _ ≤ p * 2 ^ (b + 1) := mul_le_mul_right' ha1 _
    have hcast : ((2 ^ a : ℕ) : ℚ) * q < (p : ℚ) * ((2 ^ (b + 1) : ℕ) : ℚ) := by
      exact_mod_cast hnat
    have hpow : (2 : ℚ) ^ (e - 1) = ((2 ^ a : ℕ) : ℚ) / ((2 ^ (b + 1) : ℕ) : ℚ) := by
      push_cast
      rw [show e - 1 = (a : ℤ) - ((b : ℤ) + 1) by omega, zpow_sub₀ (by norm_num : (2:ℚ) ≠ 0)]
      norm_cast
    rw [hpow, div_lt_div_iff (by positivity) hq']
    push_cast at hcast ⊢
    linarith
  have hhigh : (p : ℚ) / q < 2 ^ (e + 1) := by
    have hnat : p * 2 ^ b < 2 ^ (a + 1) * q := by
      calc p * 2 ^ b < 2 ^ (a + 1) * 2 ^ b :=
        mul_lt_mul_of_pos_right ha2 (pow_pos (by norm_num) b)
      _ ≤ 2 ^ (a + 1) * q := mul_le_mul_left' hb1 _
    have hcast : (p : ℚ) * ((2 ^ b : ℕ) : ℚ) < ((2 ^ (a + 1) : ℕ) : ℚ) * q := by
      exact_mod_cast hnat
    have hpow : (2 : ℚ) ^ (e + 1) = ((2 ^ (a + 1) : ℕ) : ℚ) / ((2 ^ b : ℕ) : ℚ) := by
      push_cast
      rw [show e + 1 = ((a : ℤ) + 1) - (b : ℤ) by omega, zpow_sub₀ (by norm_num : (2:ℚ) ≠ 0)]
      norm_cast
    rw [hpow, div_lt_div_iff hq' (by positivity)]
    push_cast at hcast ⊢
    linarith
  have hcond : (p * 2 ^ (-e).toNat < q * 2 ^ e.toNat) ↔ ((p : ℚ) / q < 2 ^ e) := by
    rw [zpow_toNat_div e, div_lt_div_iff hq' (by positivity)]
    constructor
    · intro hlt
      have : ((p * 2 ^ (-e).toNat : ℕ) : ℚ) < ((q * 2 ^ e.toNat : ℕ) : ℚ) := by
        exact_mod_cast hlt
      push_cast at this ⊢
      linarith
    · intro hlt
      have : ((p * 2 ^ (-e).toNat : ℕ) : ℚ) < ((q * 2 ^ e.toNat : ℕ) : ℚ) := by
        push_cast
        push_cast at hlt
        linarith
      exact_mod_cast this
  unfold ilog2F
  rw [← hadef, ← hbdef, ← hedef]
  by_cases hc : p * 2 ^ (-e).toNat < q * 2 ^ e.toNat
  · simp only [hc, if_true]
    refine ⟨le_of_lt hlow, ?_⟩
    rw [show e - 1 + 1 = e by omega]
    exact hcond.mp hc
  · simp only [hc, if_false]
    refine ⟨?_, hhigh⟩
    exact le_of_not_lt (fun hlt => hc (hcond.mpr hlt))

/-- The value of a scaled fraction. -/
theorem fracOfScaled_val (P : ℕ) (T : ℤ) :
    ((fracOfScaled P T).1 : ℚ) / ((fracOfScaled P T).2 : ℚ) = (P : ℚ) * 2 ^ T := by
  unfold fracOfScaled
  rw [zpow_toNat_div T]
  push_cast
  ring

/-- Denominators produced by `fracOfScaled` are positive. -/
theorem fracOfScaled_den_pos (P : ℕ) (T : ℤ) : 0 < (fracOfScaled P T).2 :=
  pow_pos (by norm_num) _

/-- Values of significand–exponent pairs are nonnegative. -/
theorem valF32_nonneg (v : ℕ × ℤ) : 0 ≤ valF32 v := by
  unfold valF32
  positivity

/-- Rounding the zero fraction. -/
theorem roundF32Frac_zero (q : ℕ) : roundF32Frac 0 q = (0, 0) := by
  simp [roundF32Frac]

/-- The value of the binary32 rounding is the tie-to-even rounding on the
grid `2 ^ (ilog2F p q - 23)`. -/
theorem roundF32Frac_val (p q : ℕ) (hp : 0 < p) (hq : 0 < q) :
    valF32 (roundF32Frac p q)
      = (rneQ ((p : ℚ) / q / 2 ^ (ilog2F p q - 23)) : ℚ) * 2 ^ (ilog2F p q - 23) := by
  have hp0 : ¬p = 0 := by omega
  have hre : roundF32Frac p q
      = (rneInt (p * 2 ^ (-(ilog2F p q - 23)).toNat) (q * 2 ^ (ilog2F p q - 23).toNat),
        ilog2F p q - 23) := by
    unfold roundF32Frac
    rw [if_neg hp0]
  rw [hre]
  dsimp only [valF32]
  set t := ilog2F p q - 23 with htdef
  have hbpos : 0 < q * 2 ^ t.toNat := by positivity
  have hr0 : ((rneInt (p * 2 ^ (-t).toNat) (q * 2 ^ t.toNat) : ℕ) : ℚ)
      = (((rneInt (p * 2 ^ (-t).toNat) (q * 2 ^ t.toNat) : ℕ) : ℤ) : ℚ) :=
    (Int.cast_natCast _).symm
  rw [hr0, rneInt_eq (p * 2 ^ (-t).toNat) (q * 2 ^ t.toNat) hbpos]
  have hfrac : ((p * 2 ^ (-t).toNat : ℕ) : ℚ) / ((q * 2 ^ t.toNat : ℕ) : ℚ)
      = (p : ℚ) / q / 2 ^ t := by
    have hzt : (2 : ℚ) ^ (-t) = ((2 ^ (-t).toNat : ℕ) : ℚ) / ((2 ^ t.toNat : ℕ) : ℚ) := by
      have := zpow_toNat_div (-t)
      rw [neg_neg] at this
      exact this
    rw [div_eq_mul_inv ((p:ℚ)/q), ← zpow_neg, hzt]
    push_cast
    exact mul_div_mul_comm _ _ _ _
  rw [hfrac]

/-- Upper bound: the rounded value does not exceed the upper power of two of
its bracket. -/
theorem roundF32Frac_le (p q : ℕ) (hp : 0 < p) (hq : 0 < q) :
    valF32 (roundF32Frac p q) ≤ 2 ^ (ilog2F p q + 1) := by
  obtain ⟨hl, hr⟩ := ilog2F_spec p q hp hq
  set e := ilog2F p q with hedef
  set u : ℚ := 2 ^ (e - 23) with hudef
  have hu : (0 : ℚ) < u := by positivity
  have hpow : ((2 : ℚ) ^ (24 : ℕ)) * u = 2 ^ (e + 1) := by
    rw [hudef, ← zpow_natCast (2 : ℚ) 24, ← zpow_add₀ (by norm_num : (2:ℚ) ≠ 0)]
    congr 1
    omega
  rw [roundF32Frac_val p q hp hq, ← hedef, ← hudef]
  have hdiv : (p : ℚ) / q / u < 2 ^ (24 : ℕ) := by
    rw [div_lt_iff hu, hpow]
    exact hr
  have hfl : ⌊(p : ℚ) / q / u⌋ < (2 ^ (24 : ℕ) : ℤ) := by
    apply Int.floor_lt.mpr
    push_cast
    exact hdiv
  have hrne : rneQ ((p : ℚ) / q / u) ≤ (2 ^ (24 : ℕ) : ℤ) := by
    have hb := rneQ_le ((p : ℚ) / q / u)
    have h16 : (2 ^ (24 : ℕ) : ℤ) = 16777216 := by norm_num
    rw [h16] at hfl ⊢
    omega
  have hcast : (rneQ ((p : ℚ) / q / u) : ℚ) ≤ (2 : ℚ) ^ (24 : ℕ) := by
    exact_mod_cast hrne
  calc (rneQ ((p : ℚ) / q / u) : ℚ) * u ≤ ((2 : ℚ) ^ (24 : ℕ)) * u :=
        mul_le_mul_of_nonneg_right hcast (le_of_lt hu)
    _ = 2 ^ (e + 1) := hpow

/-- Lower bound: the rounded value is at least the lower power of two of its
bracket. -/
theorem le_roundF32Frac (p q : ℕ) (hp : 0 < p) (hq : 0 < q) :
    (2 : ℚ) ^ ilog2F p q ≤ valF32 (roundF32Frac p q) := by
  obtain ⟨hl, hr⟩ := ilog2F_spec p q hp hq
  set e := ilog2F p q with hedef
  set u : ℚ := 2 ^ (e - 23) with hudef
  have hu : (0 : ℚ) < u := by positivity
  have hpow : ((2 : ℚ) ^ (23 : ℕ)) * u = 2 ^ e := by
    rw [hudef, ← zpow_natCast (2 : ℚ) 23, ← zpow_add₀ (by norm_num : (2:ℚ) ≠ 0)]
    congr 1
    omega
  rw [roundF32Frac_val p q hp hq, ← hedef, ← hudef]
  have hdiv : (2 : ℚ) ^ (23 : ℕ) ≤ (p : ℚ) / q / u := by
    rw [le_div_iff hu, hpow]
    exact hl
  have hfl : (2 ^ (23 : ℕ) : ℤ) ≤ ⌊(p : ℚ) / q / u⌋ := by
    apply Int.le_floor.mpr
    push_cast
    exact hdiv
  have hrne : (2 ^ (23 : ℕ) : ℤ) ≤ rneQ ((p : ℚ) / q / u) := by
    have hb := rneQ_floor_le ((p : ℚ) / q / u)
    have h8 : (2 ^ (23 : ℕ) : ℤ) = 8388608 := by norm_num
    rw [h8] at hfl ⊢
    omega
  have hcast : (2 : ℚ) ^ (23 : ℕ) ≤ (rneQ ((p : ℚ) / q / u) : ℚ) := by
    exact_mod_cast hrne
  calc (2 : ℚ) ^ e = ((2 : ℚ) ^ (23 : ℕ)) * u := hpow.symm
    _ ≤ (rneQ ((p : ℚ) / q / u) : ℚ) * u :=
        mul_le_mul_of_nonneg_right hcast (le_of_lt hu)

/-- Binary32 rounding is monotone on fraction values. -/
theorem roundF32Frac_mono {p₁ q₁ p₂ q₂ : ℕ} (hq₁ : 0 < q₁) (hq₂ : 0 < q₂)
    (h : (p₁ : ℚ) / q₁ ≤ (p₂ : ℚ) / q₂) :
    valF32 (roundF32Frac p₁ q₁) ≤ valF32 (roundF32Frac p₂ q₂) := by
  by_cases hp₁ : p₁ = 0
  · subst hp₁
    rw [roundF32Frac_zero]
    calc valF32 (0, 0) = 0 := by simp [valF32]
    _ ≤ valF32 (roundF32Frac p₂ q₂) := valF32_nonneg _
  · have hp₁' : 0 < p₁ := Nat.pos_of_ne_zero hp₁
    have hx₁ : (0 : ℚ) < (p₁ : ℚ) / q₁ := by positivity
    have hp₂' : 0 < p₂ := by
      rcases Nat.eq_zero_or_pos p₂ with h0 | h0
      · subst h0
        simp at h
        linarith
      · exact h0
    obtain ⟨hl₁, hr₁⟩ := ilog2F_spec p₁ q₁ hp₁' hq₁
    obtain ⟨hl₂, hr₂⟩ := ilog2F_spec p₂ q₂ hp₂' hq₂
    have hee : ilog2F p₁ q₁ ≤ ilog2F p₂ q₂ := by
      by_contra hcon
      push_neg at hcon
      have h1 : (2 : ℚ) ^ (ilog2F p₂ q₂ + 1) ≤ 2 ^ ilog2F p₁ q₁ := by
        apply zpow_le_zpow_right₀ (by norm_num : (1:ℚ) ≤ 2)
        omega
      linarith
    rcases eq_or_lt_of_le hee with heq | hlt
    · rw [roundF32Frac_val p₁ q₁ hp₁' hq₁, roundF32Frac_val p₂ q₂ hp₂' hq₂, ← heq]
      set u : ℚ := 2 ^ (ilog2F p₁ q₁ - 23) with hudef
      have hu : (0 : ℚ) < u := by positivity
      have hduv : (p₁ : ℚ) / q₁ / u ≤ (p₂ : ℚ) / q₂ / u := (div_le_div_right hu).mpr h
      apply mul_le_mul_of_nonneg_right _ (le_of_lt hu)
      exact_mod_cast rneQ_mono hduv
    · calc valF32 (roundF32Frac p₁ q₁) ≤ 2 ^ (ilog2F p₁ q₁ + 1) :=
        roundF32Frac_le p₁ q₁ hp₁' hq₁
      _ ≤ 2 ^ ilog2F p₂ q₂ := by
        apply zpow_le_zpow_right₀ (by norm_num : (1:ℚ) ≤ 2)
        omega
      _ ≤ valF32 (roundF32Frac p₂ q₂) := le_roundF32Frac p₂ q₂ hp₂' hq₂

/-- The value of an `f32` product input fraction is the product of values. -/
theorem mulF32_frac_val (a b : ℕ × ℤ) :
    ((fracOfScaled (a.1 * b.1) (a.2 + b.2)).1 : ℚ)
        / ((fracOfScaled (a.1 * b.1) (a.2 + b.2)).2 : ℚ)
      = valF32 a * valF32 b := by
  rw [fracOfScaled_val]
  unfold valF32
  push_cast
  rw [zpow_add₀ (by norm_num : (2:ℚ) ≠ 0)]
  ring

/-- `f32` multiplication is monotone in the second operand. -/
theorem mulF32_mono_right (c x y : ℕ × ℤ) (hxy : valF32 x ≤ valF32 y) :
    valF32 (mulF32 c x) ≤ valF32 (mulF32 c y) := by
  unfold mulF32
  apply roundF32Frac_mono (fracOfScaled_den_pos _ _) (fracOfScaled_den_pos _ _)
  rw [mulF32_frac_val, mulF32_frac_val]
  exact mul_le_mul_of_nonneg_left hxy (valF32_nonneg c)

/-- `n as f32` is monotone. -/
theorem ofNatF32_mono {i j : ℕ} (h : i ≤ j) :
    valF32 (ofNatF32 i) ≤ valF32 (ofNatF32 j) := by
  unfold ofNatF32
  apply roundF32Frac_mono (by omega) (by omega)
  simp only [Nat.cast_one, div_one]
  exact_mod_cast h

/-- `(2p + q) / (2q)` in natural-number division is `⌊p/q + 1/2⌋`. -/
theorem rustRoundFrac_cast (p q : ℕ) (hq : 0 < q) :
    (rustRoundFrac p q : ℤ) = ⌊(p : ℚ) / q + 1 / 2⌋ := by
  have hq' : (q : ℚ) ≠ 0 := Nat.cast_ne_zero.mpr (by omega)
  have hx : (p : ℚ) / q + 1 / 2 = ((2 * p + q : ℕ) : ℚ) / ((2 * q : ℕ) : ℚ) := by
    push_cast
    field_simp
    ring
  rw [rustRoundFrac, hx]
  exact natDiv_cast_floor (2 * p + q) (2 * q)

/-- Boundaries are monotone in the worker index: each worker's `chunk_end`
is at least its `chunk_start`, and later chunks start no earlier. -/
theorem chunkBoundary_mono (total wc : Nat) {i j : Nat} (h : i ≤ j) :
    chunkBoundary total wc i ≤ chunkBoundary total wc j := by
  unfold chunkBoundary
  set c := divF32 (ofNatF32 total) (ofNatF32 wc) with hcdef
  set x := mulF32 c (ofNatF32 i) with hxdef
  set y := mulF32 c (ofNatF32 j) with hydef
  have hval : valF32 x ≤ valF32 y :=
    mulF32_mono_right c (ofNatF32 i) (ofNatF32 j) (ofNatF32_mono h)
  have hfx : ((fracOfScaled x.1 x.2).1 : ℚ) / ((fracOfScaled x.1 x.2).2 : ℚ) = valF32 x := by
    rw [fracOfScaled_val]; rfl
  have hfy : ((fracOfScaled y.1 y.2).1 : ℚ) / ((fracOfScaled y.1 y.2).2 : ℚ) = valF32 y := by
    rw [fracOfScaled_val]; rfl
  have hint : (rustRoundFrac (fracOfScaled x.1 x.2).1 (fracOfScaled x.1 x.2).2 : ℤ)
      ≤ (rustRoundFrac (fracOfScaled y.1 y.2).1 (fracOfScaled y.1 y.2).2 : ℤ) := by
    rw [rustRoundFrac_cast _ _ (fracOfScaled_den_pos _ _),
      rustRoundFrac_cast _ _ (fracOfScaled_den_pos _ _), hfx, hfy]
    apply Int.floor_le_floor
    linarith
  exact_mod_cast hint

/-- The first chunk starts at index 0 (for every worker count, zero
included). -/
theorem chunkBoundary_zero (total wc : Nat) :
    chunkBoundary total wc 0 = 0 := by
  unfold chunkBoundary
  have h0 : ofNatF32 0 = (0, 0) := rfl
  rw [h0]
  unfold mulF32
  simp [fracOfScaled, roundF32Frac, rustRoundFrac]

/-- Discrete covering: any index between the first and the last value of a
boundary sequence lies in some step of it. -/
theorem exists_chunk_of_lt (f : Nat → Nat) :
    ∀ (m n : Nat), f 0 ≤ n → n < f m → ∃ i, i < m ∧ f i ≤ n ∧ n < f (i + 1)
  | 0, n, h0, hm => absurd hm (by omega)
  | m + 1, n, h0, hm => by
    by_cases hfm : f m ≤ n
    · exact ⟨m, Nat.lt_succ_self m, hfm, hm⟩
    · obtain ⟨i, hi, h1, h2⟩ := exists_chunk_of_lt f m n h0 (by omega)
      exact ⟨i, by omega, h1, h2⟩

/-! ## Tiling of the input by the chunks -/

/-- Splitting a `take` at an intermediate length. -/
theorem take_split {α : Type} : ∀ (m n : Nat) (l : List α),
    l.take (m + n) = l.take m ++ (l.drop m).take n
  | 0, n, l => by simp
  | m + 1, n, [] => by simp
  | m + 1, n, a :: l => by
    have hmn : m + 1 + n = (m + n) + 1 := by omega
    rw [hmn]
    simp [take_split m n l]

/-- Two adjacent chunks concatenate to the enclosing chunk. -/
theorem chunkLines_append (l : List (List Char)) {s e f : Nat}
    (h1 : s ≤ e) (h2 : e ≤ f) :
    chunkLines l s e ++ chunkLines l e f = chunkLines l s f := by
  have hf : f - s = (e - s) + (f - e) := by omega
  rw [chunkLines, chunkLines, chunkLines, hf, take_split]
  congr 2
  rw [List.drop_drop]
  congr 1
  omega

/-- The chunks of any monotone boundary sequence tile the slice between the
first and the last boundary. -/
theorem flatten_chunkLines (l : List (List Char)) (b : Nat → Nat)
    (hmono : ∀ i j, i ≤ j → b i ≤ b j) :
    ∀ n, ((List.range n).map fun i => chunkLines l (b i) (b (i + 1))).flatten
      = chunkLines l (b 0) (b n)
  | 0 => by simp [chunkLines]
  | n + 1 => by
    rw [List.range_succ, List.map_append, List.flatten_append,
      flatten_chunkLines l b hmono n]
    simp
    exact chunkLines_append l (hmono 0 n (by omega)) (hmono n (n + 1) (by omega))

/-- The chunk from 0 to the length is the whole input. -/
theorem chunkLines_full (l : List (List Char)) : chunkLines l 0 l.length = l := by
  simp [chunkLines]

/-! ## The letter stream distributes over the tiling -/

/-- The scanning pipeline is a homomorphism on line lists. -/
theorem lineLetters_append (isAlpha : Char → Bool) (toLower : Char → List Char)
    (xs ys : List (List Char)) :
    lineLetters isAlpha toLower (xs ++ ys)
      = lineLetters isAlpha toLower xs ++ lineLetters isAlpha toLower ys := by
  simp [lineLetters]

/-- Scanning each block and concatenating equals scanning the concatenation. -/
theorem flatten_map_lineLetters (isAlpha : Char → Bool) (toLower : Char → List Char) :
    ∀ ls : List (List (List Char)),
      (ls.map (lineLetters isAlpha toLower)).flatten
        = lineLetters isAlpha toLower ls.flatten
  | [] => by simp [lineLetters]
  | xs :: ls => by
    simp only [List.map_cons, List.flatten_cons, lineLetters_append,
      flatten_map_lineLetters isAlpha toLower ls]

/-- Filtering each line and flattening equals flattening then filtering. -/
theorem flatten_map_filter (p : Char → Bool) :
    ∀ ls : List (List Char),
      (ls.map fun s => s.filter p).flatten = ls.flatten.filter p
  | [] => by simp
  | s :: ls => by
    simp only [List.map_cons, List.flatten_cons, List.filter_append,
      flatten_map_filter p ls]

/-- The letter stream of the whole input, written over the flattened input. -/
theorem lineLetters_eq (isAlpha : Char → Bool) (toLower : Char → List Char)
    (lines : List (List Char)) :
    lineLetters isAlpha toLower lines
      = (lines.flatten.filter isAlpha).map (lowerFirst toLower) := by
  rw [lineLetters, flatten_map_filter]

/-- The letter streams of the `worker_count` chunks concatenate to the
letter stream of the whole input. -/
theorem workerLetters_flatten (isAlpha : Char → Bool) (toLower : Char → List Char)
    (lines : List (List Char)) (wc : Nat) :
    ((List.range wc).map fun i =>
        lineLetters isAlpha toLower
          (chunkLines lines (chunkBoundary lines.length wc i)
            (chunkBoundary lines.length wc (i + 1)))).flatten
      = lineLetters isAlpha toLower
          (lines.take (chunkBoundary lines.length wc wc)) := by
  have hmap : ((List.range wc).map fun i =>
      lineLetters isAlpha toLower
        (chunkLines lines (chunkBoundary lines.length wc i)
          (chunkBoundary lines.length wc (i + 1))))
      = (((List.range wc).map fun i =>
          chunkLines lines (chunkBoundary lines.length wc i)
            (chunkBoundary lines.length wc (i + 1))).map
              (lineLetters isAlpha toLower)) := by
    rw [List.map_map]
    rfl
  rw [hmap, flatten_map_lineLetters,
    flatten_chunkLines lines (chunkBoundary lines.length wc)
      (fun i j hij => chunkBoundary_mono lines.length wc hij) wc,
    chunkBoundary_zero lines.length wc]
  simp [chunkLines]

/-! ## Count characterisation of `frequency` -/

/-- The central lemma: for any positive worker count, the merged table counts
each key exactly as often as it occurs in the letter stream of the whole
input. -/
theorem countT_frequency (isAlpha : Char → Bool) (toLower : Char → List Char)
    (lines : List (List Char)) (wc : Nat) (k : Char) :
    countT (frequency isAlpha toLower lines wc) k
      = (lineLetters isAlpha toLower
          (lines.take (chunkBoundary lines.length wc wc))).count k := by
  rw [frequency, aggregate, countT_foldl_mergeInto]
  have h0 : countT [] k = 0 := by simp [countT, lookupT]
  rw [h0, Nat.zero_add, partialTables, List.map_map]
  have e1 : ∀ i : Nat,
      keySum (workerTable isAlpha toLower lines wc i) k
        = (lineLetters isAlpha toLower
            (chunkLines lines (chunkBoundary lines.length wc i)
              (chunkBoundary lines.length wc (i + 1)))).count k := by
    intro i
    rw [workerTable, keySum_eq_countT _ (keys_nodup_countFold _) k, countT_countFold]
  have e2 : ((List.range wc).map ((fun u => keySum u k) ∘ workerTable isAlpha toLower lines wc))
      = ((List.range wc).map fun i =>
          (lineLetters isAlpha toLower
            (chunkLines lines (chunkBoundary lines.length wc i)
              (chunkBoundary lines.length wc (i + 1)))).count k) := by
    refine List.map_congr_left ?_
    intro i _
    exact e1 i
  rw [e2]
  have e3 : ((List.range wc).map fun i =>
      (lineLetters isAlpha toLower
        (chunkLines lines (chunkBoundary lines.length wc i)
          (chunkBoundary lines.length wc (i + 1)))).count k)
      = (((List.range wc).map fun i =>
          lineLetters isAlpha toLower
            (chunkLines lines (chunkBoundary lines.length wc i)
              (chunkBoundary lines.length wc (i + 1)))).map fun l => l.count k) := by
    rw [List.map_map]
    rfl
  rw [e3, ← List.count_flatten, workerLetters_flatten isAlpha toLower lines wc]

/-! ## Sum-of-counts lemmas -/

/-- `bump` increases the sum of counts by exactly the increment. -/
theorem tableTotal_bump (t : Table) (k : Char) (v : Nat) :
    tableTotal (bump t k v) = tableTotal t + v := by
  induction t with
  | nil => simp [bump, tableTotal]
  | cons p t ih =>
    by_cases hpk : p.1 = k
    · simp [bump, hpk, tableTotal]
      omega
    · simp [bump, hpk, tableTotal] at ih ⊢
      omega

/-- The per-character counting fold adds one per character scanned. -/
theorem tableTotal_foldl_count : ∀ (cs : List Char) (t : Table),
    tableTotal (cs.foldl (fun m c => bump m c 1) t) = tableTotal t + cs.length
  | [], t => by simp
  | c :: cs, t => by
    rw [List.foldl_cons, tableTotal_foldl_count cs (bump t c 1), tableTotal_bump]
    simp
    omega

/-- A worker table's counts sum to the length of its letter stream. -/
theorem tableTotal_countFold (cs : List Char) :
    tableTotal (countFold cs) = cs.length := by
  simpa [countFold, tableTotal] using tableTotal_foldl_count cs []

/-- Merging adds the incoming table's sum of counts. -/
theorem tableTotal_foldl_bump : ∀ (u : List (Char × Nat)) (t : Table),
    tableTotal (u.foldl (fun m p => bump m p.1 p.2) t) = tableTotal t + tableTotal u
  | [], t => by simp [tableTotal]
  | p :: u, t => by
    rw [List.foldl_cons, tableTotal_foldl_bump u (bump t p.1 p.2), tableTotal_bump]
    simp [tableTotal]
    omega

/-- `mergeInto` adds the sums of counts. -/
theorem tableTotal_mergeInto (t u : Table) :
    tableTotal (mergeInto t u) = tableTotal t + tableTotal u :=
  tableTotal_foldl_bump u t

/-- The aggregation fold sums the sums of counts of all received tables. -/
theorem tableTotal_foldl_mergeInto : ∀ (ts : List Table) (t : Table),
    tableTotal (ts.foldl mergeInto t) = tableTotal t + (ts.map tableTotal).sum
  | [], t => by simp
  | u :: ts, t => by
    rw [List.foldl_cons, tableTotal_foldl_mergeInto ts (mergeInto t u),
      tableTotal_mergeInto]
    simp
    omega

/-- The merged table's counts sum to the length of the whole letter stream. -/
theorem tableTotal_frequency (isAlpha : Char → Bool) (toLower : Char → List Char)
    (lines : List (List Char)) (wc : Nat) :
    tableTotal (frequency isAlpha toLower lines wc)
      = (lineLetters isAlpha toLower
          (lines.take (chunkBoundary lines.length wc wc))).length := by
  rw [frequency, aggregate, tableTotal_foldl_mergeInto, partialTables, List.map_map]
  have e1 : (List.range wc).map (tableTotal ∘ workerTable isAlpha toLower lines wc)
      = ((List.range wc).map fun i =>
          lineLetters isAlpha toLower
            (chunkLines lines (chunkBoundary lines.length wc i)
              (chunkBoundary lines.length wc (i + 1)))).map List.length := by
    rw [List.map_map]
    refine List.map_congr_left ?_
    intro i _
    simp only [Function.comp_apply, workerTable, tableTotal_countFold]
  rw [e1, ← List.length_flatten, workerLetters_flatten isAlpha toLower lines wc]
  simp [tableTotal]

/-- Every partial table carries only positive counts. -/
theorem allPos_partialTables (isAlpha : Char → Bool) (toLower : Char → List Char)
    (lines : List (List Char)) (wc : Nat) :
    ∀ u ∈ partialTables isAlpha toLower lines wc, AllPos u := by
  intro u hu
  rw [partialTables] at hu
  obtain ⟨i, _, rfl⟩ := List.mem_map.mp hu
  exact allPos_countFold _

/-- The merged table carries only positive counts. -/
theorem allPos_frequency (isAlpha : Char → Bool) (toLower : Char → List Char)
    (lines : List (List Char)) (wc : Nat) :
    AllPos (frequency isAlpha toLower lines wc) :=
  allPos_foldl_mergeInto _ [] (fun p hp => absurd hp (List.not_mem_nil p))
    (allPos_partialTables isAlpha toLower lines wc)

/-! ## The gap input: the binary32 partition can drop the last line -/

/-- Scanning lines that are all empty yields the empty letter stream. -/
theorem lineLetters_all_nil (isAlpha : Char → Bool) (toLower : Char → List Char) :
    ∀ ls : List (List Char), (∀ s ∈ ls, s = ([] : List Char)) →
      lineLetters isAlpha toLower ls = []
  | [], _ => by simp [lineLetters]
  | s :: ls, h => by
    have hs : s = [] := h s (by simp)
    have ht := lineLetters_all_nil isAlpha toLower ls (fun r hr => h r (by simp [hr]))
    subst hs
    have hstep : lineLetters isAlpha toLower (([] : List Char) :: ls)
        = lineLetters isAlpha toLower ls := by
      simp [lineLetters]
    rw [hstep, ht]

/-- A chunk's lines all occur among the first `e` input lines. -/
theorem mem_chunkLines_take {l : List (List Char)} {s e : Nat} {x : List Char}
    (hx : x ∈ chunkLines l s e) : x ∈ l.take e := by
  by_cases hse : s ≤ e
  · have h2 : s + (e - s) = e := by omega
    have heq : chunkLines l s e = (l.take e).drop s := by
      rw [chunkLines, List.take_drop, h2]
    rw [heq] at hx
    exact List.mem_of_mem_drop hx
  · rw [chunkLines] at hx
    have h0 : e - s = 0 := by omega
    simp [h0] at hx

/-- Every chunk that ends at or before the empty prefix of `gapLines`
consists of empty lines only. -/
theorem chunkLines_gap_all_nil (s e : Nat) (he : e ≤ 10404220) :
    ∀ x ∈ chunkLines gapLines s e, x = ([] : List Char) := by
  intro x hx
  have hx' : x ∈ gapLines.take e := mem_chunkLines_take hx
  rw [gapLines, List.take_append_of_le_length (by rw [List.length_replicate]; omega),
    List.take_replicate] at hx'
  exact List.eq_of_mem_replicate hx'

/-- The gap input has 10404221 lines. -/
theorem gapLines_length : gapLines.length = 10404221 := by
  rw [gapLines, List.length_append, List.length_replicate]
  rfl

/-- The characters of the gap input are the single `'a'`. -/
theorem gapLines_flatten : gapLines.flatten = ['a'] := by
  rw [gapLines, List.flatten_append]
  have h1 : (List.replicate 10404220 ([] : List Char)).flatten = [] := by
    rw [List.flatten_eq_nil_iff]
    intro l hl
    exact List.eq_of_mem_replicate hl
  rw [h1]
  rfl

/-- At the gap input with nine workers, every worker's chunk ends at or
before line 10404220, so every partial table is empty. -/
theorem workerTable_gap_empty (isAlpha : Char → Bool) (toLower : Char → List Char)
    (i : Nat) (hi : i < 9) :
    workerTable isAlpha toLower gapLines 9 i = [] := by
  have hb9 : chunkBoundary 10404221 9 9 = 10404220 := by decide
  have hmono : chunkBoundary 10404221 9 (i + 1) ≤ chunkBoundary 10404221 9 9 :=
    chunkBoundary_mono 10404221 9 (by omega)
  have he : chunkBoundary 10404221 9 (i + 1) ≤ 10404220 := by omega
  rw [workerTable, gapLines_length]
  rw [lineLetters_all_nil isAlpha toLower _ (chunkLines_gap_all_nil _ _ he)]
  rfl

/-- The aggregation fold over empty tables returns its accumulator. -/
theorem foldl_mergeInto_nil : ∀ (ts : List Table) (t : Table),
    (∀ u ∈ ts, u = []) → ts.foldl mergeInto t = t
  | [], t, _ => rfl
  | u :: ts, t, h => by
    have hu : u = [] := h u (by simp)
    subst hu
    rw [List.foldl_cons]
    exact foldl_mergeInto_nil ts t (fun r hr => h r (by simp [hr]))

/-- At the gap input with nine workers the merged table is empty: the `'a'`
of the dropped last line is never counted. -/
theorem frequency_gap_nine (isAlpha : Char → Bool) (toLower : Char → List Char) :
    frequency isAlpha toLower gapLines 9 = [] := by
  have hall : ∀ u ∈ partialTables isAlpha toLower gapLines 9, u = [] := by
    intro u hu
    rw [partialTables] at hu
    obtain ⟨i, hi, rfl⟩ := List.mem_map.mp hu
    exact workerTable_gap_empty isAlpha toLower i (List.mem_range.mp hi)
  rw [frequency, aggregate]
  exact foldl_mergeInto_nil _ [] hall

/-! ## Claims -/

/-- C1 (amended): for every input and every `worker_count ≥ 1` whose
binary32 boundary arithmetic is exact at the last boundary (so that the
partition covers all lines), the sum of all counts in the mapping returned
by `frequency` equals the total number of alphabetic characters
(case-insensitive) occurring across all input lines.  Holds for every
alphabetic predicate and every lowercase folding. -/
theorem completeness_sum_counts (isAlpha : Char → Bool) (toLower : Char → List Char)
    (lines : List (List Char)) (wc : Nat) (_h : 1 ≤ wc)
    (hfull : chunkBoundary lines.length wc wc = lines.length) :
    tableTotal (frequency isAlpha toLower lines wc) = alphaCount isAlpha lines := by
  rw [tableTotal_frequency isAlpha toLower lines wc, hfull, List.take_length,
    lineLetters_eq, List.length_map, alphaCount]

/-- C1 counterexample: at 10404220 empty lines plus one line `"a"` and 9
workers the binary32 partition drops the last line: the counts sum to 0
while the input holds 1 alphabetic character. -/
theorem completeness_counterexample :
    ¬ tableTotal (frequency asciiAlpha asciiToLower gapLines 9)
        = alphaCount asciiAlpha gapLines := by
  rw [frequency_gap_nine]
  have h1 : alphaCount asciiAlpha gapLines = 1 := by
    rw [alphaCount, gapLines_flatten]
    decide
  rw [h1]
  decide

/-- Witness for C1 at the concrete scenario input with two workers (where
the binary32 arithmetic is exact). -/
theorem completeness_sum_counts_witness :
    (1 ≤ 2 ∧ chunkBoundary 2 2 2 = 2)
    ∧ tableTotal (frequency asciiAlpha asciiToLower
        [['y','a','y'], ['h','o','o','r','a','y']] 2)
      = alphaCount asciiAlpha [['y','a','y'], ['h','o','o','r','a','y']] :=
  ⟨⟨by decide, by decide⟩,
    completeness_sum_counts asciiAlpha asciiToLower
      [['y','a','y'], ['h','o','o','r','a','y']] 2 (by decide) (by decide)⟩

/-- C2 (amended): for a fixed input, `frequency` returns the same mapping
for any two worker counts `m, n ≥ 1` whose binary32 boundary arithmetic is
exact at the last boundary (in particular also when the worker count
exceeds the number of lines): every key looks up to the same value, absence
included. -/
theorem worker_count_invariance (isAlpha : Char → Bool) (toLower : Char → List Char)
    (lines : List (List Char)) (m n : Nat) (_hm : 1 ≤ m) (_hn : 1 ≤ n)
    (hmfull : chunkBoundary lines.length m m = lines.length)
    (hnfull : chunkBoundary lines.length n n = lines.length) (k : Char) :
    lookupT (frequency isAlpha toLower lines m) k
      = lookupT (frequency isAlpha toLower lines n) k := by
  refine lookupT_eq_of_countT (allPos_frequency isAlpha toLower lines m)
    (allPos_frequency isAlpha toLower lines n) ?_ k
  intro a
  rw [countT_frequency isAlpha toLower lines m a,
    countT_frequency isAlpha toLower lines n a, hmfull, hnfull]

/-- C2 counterexample: on the gap input one worker scans all 10404221 lines
but nine workers drop the last line, so the two mappings differ at `'a'`. -/
theorem invariance_counterexample :
    ¬ lookupT (frequency asciiAlpha asciiToLower gapLines 1) 'a'
        = lookupT (frequency asciiAlpha asciiToLower gapLines 9) 'a' := by
  intro heq
  have h9 : lookupT (frequency asciiAlpha asciiToLower gapLines 9) 'a' = none := by
    rw [frequency_gap_nine]
    rfl
  have hc : countT (frequency asciiAlpha asciiToLower gapLines 1) 'a' = 1 := by
    rw [countT_frequency]
    have hb : chunkBoundary gapLines.length 1 1 = gapLines.length := by
      rw [gapLines_length]
      decide
    rw [hb, List.take_length, lineLetters_eq, gapLines_flatten]
    decide
  rw [countT, heq, h9] at hc
  simp at hc

/-- Witness for C2 with 2 and with 5 workers (5 exceeds the 2 input lines;
both partitions are binary32-exact at the last boundary). -/
theorem worker_count_invariance_witness :
    (1 ≤ 2 ∧ 1 ≤ 5 ∧ chunkBoundary 2 2 2 = 2 ∧ chunkBoundary 2 5 5 = 2)
    ∧ lookupT (frequency asciiAlpha asciiToLower
        [['y','a','y'], ['h','o','o','r','a','y']] 2) 'y'
      = lookupT (frequency asciiAlpha asciiToLower
        [['y','a','y'], ['h','o','o','r','a','y']] 5) 'y' :=
  ⟨⟨by decide, by decide, by decide, by decide⟩,
    worker_count_invariance asciiAlpha asciiToLower
      [['y','a','y'], ['h','o','o','r','a','y']] 2 5 (by decide) (by decide)
      (by decide) (by decide) 'y'⟩

/-- C3 (amended): the `worker_count` ranges `[chunkBoundary total wc i,
chunkBoundary total wc (i+1))` start at 0, have monotone boundaries (each
range's end is the next range's start, so they are contiguous) and are
pairwise non-overlapping; provided the binary32 arithmetic is exact at the
last boundary (`chunkBoundary total wc wc = total`), they end at `total`
and their union is exactly `[0, total)`. -/
theorem partition_exhaustive (total wc : Nat) (_h : 1 ≤ wc)
    (hlast : chunkBoundary total wc wc = total) :
    chunkBoundary total wc 0 = 0 ∧
    chunkBoundary total wc wc = total ∧
    (∀ i j, i ≤ j → chunkBoundary total wc i ≤ chunkBoundary total wc j) ∧
    (∀ i j, i < j → j < wc →
      chunkBoundary total wc (i + 1) ≤ chunkBoundary total wc j) ∧
    (∀ n, n < total ↔ ∃ i, i < wc ∧
      chunkBoundary total wc i ≤ n ∧ n < chunkBoundary total wc (i + 1)) := by
  refine ⟨chunkBoundary_zero total wc, hlast,
    fun i j hij => chunkBoundary_mono total wc hij,
    fun i j hij _ => chunkBoundary_mono total wc (by omega), ?_⟩
  intro n
  constructor
  · intro hn
    exact exists_chunk_of_lt (chunkBoundary total wc) wc n
      (by rw [chunkBoundary_zero total wc]; omega)
      (by rw [hlast]; omega)
  · rintro ⟨i, hi, _, h2⟩
    have hle : chunkBoundary total wc (i + 1) ≤ chunkBoundary total wc wc :=
      chunkBoundary_mono total wc (by omega)
    rw [hlast] at hle
    omega

/-- C3 counterexample: at `total = 10404221` and 9 workers the index
10404220 lies below the total but inside no chunk — the union of the nine
ranges has a gap, because the binary32 last boundary is 10404220. -/
theorem partition_gap_counterexample :
    10404220 < 10404221
    ∧ ¬ ∃ i, i < 9 ∧ chunkBoundary 10404221 9 i ≤ 10404220
        ∧ 10404220 < chunkBoundary 10404221 9 (i + 1) := by
  refine ⟨by omega, ?_⟩
  rintro ⟨i, hi, _, h2⟩
  have hle : chunkBoundary 10404221 9 (i + 1) ≤ chunkBoundary 10404221 9 9 :=
    chunkBoundary_mono 10404221 9 (by omega)
  have h9 : chunkBoundary 10404221 9 9 = 10404220 := by decide
  omega

/-- Witness for C3 at `total = 5`, `wc = 2` (binary32-exact). -/
theorem partition_exhaustive_witness :
    (1 ≤ 2 ∧ chunkBoundary 5 2 2 = 5) ∧ chunkBoundary 5 2 0 = 0 :=
  ⟨⟨by decide, by decide⟩, (partition_exhaustive 5 2 (by decide) (by decide)).1⟩

/-- C4 counterexample: with `worker_count == 0` the call does NOT fail fast:
the range `0..0` spawns no worker, the aggregation folds over zero received
tables, and a (normal, empty) result mapping is returned even for non-empty
input — contradicting "fails fast with an error ... no result mapping is
returned". -/
theorem zero_workers_no_error :
    frequency asciiAlpha asciiToLower [['a']] 0 = [] := rfl

/-- C4 amended: for every input, calling `frequency` with
`worker_count == 0` performs no scanning work (no worker chunk exists) and
returns the empty mapping without any error. -/
theorem zero_workers_empty_result (isAlpha : Char → Bool)
    (toLower : Char → List Char) (lines : List (List Char)) :
    frequency isAlpha toLower lines 0 = [] := rfl

/-- C5: every key present in the returned mapping is the lowercase folding
(first code point) of an alphabetic character occurring in the input, and
every stored value is at least 1 — characters with zero occurrences are
absent, never present with count 0. -/
theorem output_keys_and_positive (isAlpha : Char → Bool)
    (toLower : Char → List Char) (lines : List (List Char)) (wc : Nat)
    (_h : 1 ≤ wc) (k : Char) (v : Nat)
    (hl : lookupT (frequency isAlpha toLower lines wc) k = some v) :
    (∃ c ∈ lines.flatten, isAlpha c = true ∧ lowerFirst toLower c = k) ∧ 1 ≤ v := by
  have hpos : 1 ≤ v := lookupT_pos (allPos_frequency isAlpha toLower lines wc) hl
  have hcount : countT (frequency isAlpha toLower lines wc) k = v := by
    simp [countT, hl]
  rw [countT_frequency isAlpha toLower lines wc k] at hcount
  set b := chunkBoundary lines.length wc wc with hbdef
  have hk : k ∈ lineLetters isAlpha toLower (lines.take b) := by
    have hlt : 0 < (lineLetters isAlpha toLower (lines.take b)).count k := by omega
    exact List.count_pos_iff.mp hlt
  rw [lineLetters_eq] at hk
  obtain ⟨c, hc, rfl⟩ := List.mem_map.mp hk
  have hcf := List.mem_filter.mp hc
  have hcl : c ∈ lines.flatten := by
    have hmem : c ∈ (lines.take b ++ lines.drop b).flatten := by
      rw [List.flatten_append]
      exact List.mem_append_left _ hcf.1
    rwa [List.take_append_drop] at hmem
  exact ⟨⟨c, hcl, hcf.2, rfl⟩, hpos⟩

/-- Witness for C5: in the scenario table, `'y'` stores 3, which comes from
the alphabetic `'y'` of the input and is positive. -/
theorem output_keys_and_positive_witness :
    (∃ c ∈ [['y','a','y'], ['h','o','o','r','a','y']].flatten,
        asciiAlpha c = true ∧ lowerFirst asciiToLower c = 'y') ∧ 1 ≤ 3 :=
  output_keys_and_positive asciiAlpha asciiToLower
    [['y','a','y'], ['h','o','o','r','a','y']] 2 (by decide) 'y' 3 (by decide)

/-- C6 (amended): each retained character is counted under exactly the
FIRST code point of its lowercase folding (the remaining code points of a
multi-code-point fold never influence the result), and non-alphabetic
characters are filtered out before the folding is applied: whenever the
binary32 partition covers the whole input, the count of any key equals its
occurrence count in `input.filter(is_alphabetic).map(first of
to_lowercase)`. -/
theorem first_code_point_of_fold (isAlpha : Char → Bool)
    (toLower : Char → List Char) (lines : List (List Char)) (wc : Nat)
    (_h : 1 ≤ wc)
    (hfull : chunkBoundary lines.length wc wc = lines.length) (k : Char) :
    countT (frequency isAlpha toLower lines wc) k
      = ((lines.flatten.filter isAlpha).map fun c => (toLower c).headD c).count k := by
  rw [countT_frequency isAlpha toLower lines wc k, hfull, List.take_length,
    lineLetters_eq]
  rfl

/-- C6 counterexample: with the gap input and 9 workers the `'a'` on the
dropped last line appears in the filtered-and-folded stream of the whole
input but is never counted. -/
theorem fold_count_counterexample :
    ¬ countT (frequency asciiAlpha asciiToLower gapLines 9) 'a'
        = ((gapLines.flatten.filter asciiAlpha).map
            fun c => (asciiToLower c).headD c).count 'a' := by
  rw [frequency_gap_nine, gapLines_flatten]
  decide

/-- Witness for C6 at `U+0130`, whose folding is the two code points
`U+0069 U+0307`: the count lands on the first code point `U+0069`. -/
theorem first_code_point_of_fold_witness :
    (1 ≤ 1 ∧ chunkBoundary 1 1 1 = 1)
    ∧ countT (frequency latinAlpha dottedToLower [[Char.ofNat 0x130]] 1)
        (Char.ofNat 0x69)
      = (([[Char.ofNat 0x130]].flatten.filter latinAlpha).map
          fun c => (dottedToLower c).headD c).count (Char.ofNat 0x69) :=
  ⟨⟨by decide, by decide⟩,
    first_code_point_of_fold latinAlpha dottedToLower [[Char.ofNat 0x130]] 1
      (by decide) (by decide) (Char.ofNat 0x69)⟩

/-- C7: the concrete scenarios. `frequency(["yay", "hooray"], 2)` is exactly
the mapping `y ↦ 3, a ↦ 2, h ↦ 1, o ↦ 2, r ↦ 1`, and
`frequency(["123 !@#"], 2)` and `frequency([], 4)` are both empty. -/
theorem concrete_scenarios :
    frequency asciiAlpha asciiToLower [['y','a','y'], ['h','o','o','r','a','y']] 2
        = [('y', 3), ('a', 2), ('h', 1), ('o', 2), ('r', 1)]
    ∧ frequency asciiAlpha asciiToLower [['1','2','3',' ','!','@','#']] 2 = []
    ∧ frequency asciiAlpha asciiToLower [] 4 = [] :=
  ⟨by decide, by decide, by decide⟩

/-- C8: the result is deterministic regardless of the order in which the
worker tables are delivered: aggregating any permutation of the partial
tables gives the same mapping as `frequency` (and two calls with the same
arguments trivially coincide since the model is a function of its
arguments). -/
theorem result_order_independent (isAlpha : Char → Bool)
    (toLower : Char → List Char) (lines : List (List Char)) (wc : Nat)
    (ts : List Table) (_h : 1 ≤ wc)
    (hperm : ts.Perm (partialTables isAlpha toLower lines wc)) (k : Char) :
    lookupT (aggregate ts) k
      = lookupT (frequency isAlpha toLower lines wc) k := by
  have hall : ∀ u ∈ ts, AllPos u := by
    intro u hu
    exact allPos_partialTables isAlpha toLower lines wc u (hperm.mem_iff.mp hu)
  refine lookupT_eq_of_countT
    (allPos_foldl_mergeInto ts [] (fun p hp => absurd hp (List.not_mem_nil p)) hall)
    (allPos_frequency isAlpha toLower lines wc) ?_ k
  intro a
  rw [frequency]
  simp only [aggregate]
  rw [countT_foldl_mergeInto, countT_foldl_mergeInto]
  congr 1
  exact (hperm.map fun u => keySum u a).sum_eq

/-- Witness for C8: delivering the two partial tables of a two-worker run in
reversed order yields the same lookup. -/
theorem result_order_independent_witness :
    lookupT (aggregate
        (partialTables asciiAlpha asciiToLower [['a','b'], ['b']] 2).reverse) 'b'
      = lookupT (frequency asciiAlpha asciiToLower [['a','b'], ['b']] 2) 'b' :=
  result_order_independent asciiAlpha asciiToLower [['a','b'], ['b']] 2
    (partialTables asciiAlpha asciiToLower [['a','b'], ['b']] 2).reverse
    (by decide) (by decide) 'b'

/-- C9: with `worker_count == 0` the range `0..0` spawns no worker, so the
list of partial tables is empty, and the aggregation fold over zero partial
tables returns the empty mapping without any error. -/
theorem zero_workers_no_tasks (isAlpha : Char → Bool)
    (toLower : Char → List Char) (lines : List (List Char)) :
    partialTables isAlpha toLower lines 0 = []
      ∧ frequency isAlpha toLower lines 0 = [] :=
  ⟨rfl, rfl⟩

/-- C10: for every input length, worker count ≥ 1 and worker index below the
worker count, the binary32 `chunk_end` is at least the binary32
`chunk_start` (the rounded boundary sequence is monotone because every
binary32 rounding step is monotone), so the `usize` subtraction
`chunk_end - chunk_start` in the worker never underflows. -/
theorem chunk_end_ge_chunk_start (len wc i : Nat) (_h : 1 ≤ wc) (_hi : i < wc) :
    chunkBoundary len wc i ≤ chunkBoundary len wc (i + 1) :=
  chunkBoundary_mono len wc (Nat.le_succ i)

/-- Witness for C10 at `len = 7`, `wc = 3`, `i = 2`. -/
theorem chunk_end_ge_chunk_start_witness :
    1 ≤ 3 ∧ 2 < 3 ∧ chunkBoundary 7 3 2 ≤ chunkBoundary 7 3 3 :=
  ⟨by decide, by decide, chunk_end_ge_chunk_start 7 3 2 (by decide) (by decide)⟩
